import Mathlib

/-!
Shallow embedding of the auto-fund funding-replacement engine.

Numbers (rates, amounts) are modelled as rationals.  Each definition mirrors
one function of the JavaScript source:

* `AutoFund.sortOffers`, `AutoFund.onUpdateOffer`, `AutoFund.onCancelOffer`,
  `AutoFund.onUpdateBorrow`, `AutoFund.onCancelBorrow`,
  `AutoFund.findTargetRateToBorrow`, `AutoFund.replacementCost`,
  `AutoFund.orderBookCheaperThan`, `AutoFund.borrowFundsCmds`
  come from `src/strat/app.js` (class `App`).
* The `ReplaceIfCheaperApp` definitions come from the replace-if-cheaper
  strategy file, the `TargetApp` definitions from `src/strat/target.js`,
  the `Lock` model from `src/util/lock.js`, and the gateway command
  functions from `src/exchange/bitfinex-private.js`.
-/

namespace AutoFund

/-- Usage kind of a borrow: the source stores the string `'using'`
(borrow backs an open position, constructor `inUse` here) or `'unused'`. -/
inductive Usage where
  | inUse : Usage
  | unused : Usage
deriving DecidableEq

/-- An active funding position (see `rawToBorrow` in the gateway and the
fields used by the strategy code). -/
structure Borrow where
  id : Nat
  usage : Usage
  rate : ℚ
  rateFixed : ℚ
  period : Int
  amount : ℚ
deriving DecidableEq

/-- A public funding-book entry (see `rawToOrderBook`). -/
structure Offer where
  rate : ℚ
  period : Int
  count : Nat
  amount : ℚ
deriving DecidableEq

instance : Inhabited Offer := ⟨⟨0, 0, 0, 0⟩⟩

/-- An own funding order (the fields of `rawToFundingOrder` used by the
strategy code). -/
structure Order where
  id : Nat
  amount : ℚ
  amountRemaining : ℚ
  filled : ℚ
deriving DecidableEq

/-- Outbound commands a strategy can issue through the gateway socket. -/
inductive Command where
  | borrow (amount rate : ℚ) : Command
  | cancelOffers (ids : List Nat) : Command
  | returnBorrow (id : Nat) : Command
deriving DecidableEq

/-- `reduce((total, el) => total + el.amount, 0)` over a borrow list. -/
def sumAmounts (l : List Borrow) : ℚ :=
  l.foldl (fun total el => total + el.amount) 0

/-- `reduce((total, el) => total + el.amount, 0)` over an offer list. -/
def sumOfferAmounts (l : List Offer) : ℚ :=
  l.foldl (fun total el => total + el.amount) 0

/-! ### Domain state store: offers (`App.onUpdateOffer` / `App.onCancelOffer`) -/

/-- The comparator of `App.sortOffers`: ascending rate, ties broken by
descending period (`a.rate - b.rate`, then `b.period - a.period`). -/
def offerLe (a b : Offer) : Prop :=
  a.rate < b.rate ∨ (a.rate = b.rate ∧ b.period ≤ a.period)

instance : DecidableRel offerLe := fun a b =>
  inferInstanceAs (Decidable (_ ∨ _))

instance : IsTotal Offer offerLe := by
  constructor
  intro a b
  rcases lt_trichotomy a.rate b.rate with h | h | h
  · exact Or.inl (Or.inl h)
  · rcases le_total b.period a.period with hp | hp
    · exact Or.inl (Or.inr ⟨h, hp⟩)
    · exact Or.inr (Or.inr ⟨h.symm, hp⟩)
  · exact Or.inr (Or.inl h)

instance : IsTrans Offer offerLe := by
  constructor
  intro a b c hab hbc
  rcases hab with h1 | ⟨e1, p1⟩
  · rcases hbc with h2 | ⟨e2, _⟩
    · exact Or.inl (h1.trans h2)
    · exact Or.inl (e2 ▸ h1)
  · rcases hbc with h2 | ⟨e2, p2⟩
    · exact Or.inl (by rw [e1]; exact h2)
    · exact Or.inr ⟨e1.trans e2, p2.trans p1⟩

/-- `App.sortOffers`: sort the book with the `offerLe` comparator. -/
def sortOffers (l : List Offer) : List Offer :=
  List.insertionSort offerLe l

/-- `App.onUpdateOffer`: delete any entry at the same rate, insert, resort. -/
def onUpdateOffer (offers : List Offer) (offer : Offer) : List Offer :=
  sortOffers ((offers.filter (fun o => o.rate ≠ offer.rate)) ++ [offer])

/-- `App.onCancelOffer`: delete any entry at the same rate. -/
def onCancelOffer (offers : List Offer) (offer : Offer) : List Offer :=
  offers.filter (fun o => o.rate ≠ offer.rate)

/-- An offer push event, as delivered by the gateway. -/
inductive OfferEvent where
  | update (o : Offer) : OfferEvent
  | cancel (o : Offer) : OfferEvent

/-- Dispatch one offer event to the store. -/
def applyOfferEvent (offers : List Offer) : OfferEvent → List Offer
  | .update o => onUpdateOffer offers o
  | .cancel o => onCancelOffer offers o

/-- Apply a whole sequence of offer events to an initially empty book. -/
def applyOfferEvents (evs : List OfferEvent) : List Offer :=
  evs.foldl applyOfferEvent []

/-! ### Domain state store: borrows (`App.onUpdateBorrow` / `App.onCancelBorrow`) -/

/-- The comparator of `App.sortBorrows`: descending rate, ties broken by
ascending period (`b.rate - a.rate`, then `a.period - b.period`). -/
def borrowWorse (a b : Borrow) : Prop :=
  b.rate < a.rate ∨ (b.rate = a.rate ∧ a.period ≤ b.period)

instance : DecidableRel borrowWorse := fun a b =>
  inferInstanceAs (Decidable (_ ∨ _))

/-- `App.sortBorrows`: worst (most expensive) borrow first. -/
def sortBorrows (l : List Borrow) : List Borrow :=
  List.insertionSort borrowWorse l

/-- The store state touched by borrow events: the borrow collection and the
incrementally maintained `netUsing` / `netUnused` running totals. -/
structure BorrowStore where
  borrows : List Borrow
  netUsing : ℚ
  netUnused : ℚ
deriving DecidableEq

/-- The empty store the app starts from. -/
def initBorrowStore : BorrowStore := ⟨[], 0, 0⟩

/-- `App.onUpdateBorrow`: delete-by-id, insert, resort, and add the event's
amount to the matching running total. -/
def onUpdateBorrow (st : BorrowStore) (borrow : Borrow) : BorrowStore :=
  { borrows := sortBorrows ((st.borrows.filter (fun b => b.id ≠ borrow.id)) ++ [borrow])
    netUsing := if borrow.usage = .inUse then st.netUsing + borrow.amount else st.netUsing
    netUnused := if borrow.usage = .inUse then st.netUnused else st.netUnused + borrow.amount }

/-- `App.onCancelBorrow`: delete-by-id and subtract the event's amount from
the matching running total. -/
def onCancelBorrow (st : BorrowStore) (borrow : Borrow) : BorrowStore :=
  { borrows := st.borrows.filter (fun b => b.id ≠ borrow.id)
    netUsing := if borrow.usage = .inUse then st.netUsing - borrow.amount else st.netUsing
    netUnused := if borrow.usage = .inUse then st.netUnused else st.netUnused - borrow.amount }

/-- A borrow push event, as delivered by the gateway. -/
inductive BorrowEvent where
  | update (b : Borrow) : BorrowEvent
  | cancel (b : Borrow) : BorrowEvent

/-- Dispatch one borrow event to the store. -/
def applyBorrowEvent (st : BorrowStore) : BorrowEvent → BorrowStore
  | .update b => onUpdateBorrow st b
  | .cancel b => onCancelBorrow st b

/-- Apply a whole sequence of borrow events to an initially empty store. -/
def applyBorrowEvents (evs : List BorrowEvent) : BorrowStore :=
  evs.foldl applyBorrowEvent initBorrowStore

/-- Fresh recomputation: total amount of active borrows with the given usage. -/
def freshNet (u : Usage) (borrows : List Borrow) : ℚ :=
  sumAmounts (borrows.filter (fun b => b.usage = u))

/-! ### `App.findTargetRateToBorrow` -/

/-- The `book.forEach` body of `App.findTargetRateToBorrow`, carrying the
`rate` and `balance` accumulators. -/
def findFillRateAux : List Offer → ℚ → ℚ → ℚ
  | [], rate, _ => rate
  | b :: rest, rate, balance =>
      findFillRateAux rest (if balance > 0 then b.rate else rate) (balance - b.amount)

/-- `App.findTargetRateToBorrow`: simulate filling the book in order,
returning the rate of the last tier that was still needed.  The source
indexes `book[0]`, so the empty book (a runtime error there) maps to `0`. -/
def findTargetRateToBorrow (book : List Offer) (amount : ℚ) : ℚ :=
  match book with
  | [] => 0
  | b0 :: _ => findFillRateAux book b0.rate amount

/-- Modelled from the spec: the index of the last tier needed to cover the
requested amount (the first position where the running prefix sum of offer
amounts reaches the requested amount), if the book can cover it at all. -/
def coverIndex : List Offer → ℚ → Option Nat
  | [], _ => none
  | o :: rest, amt => if amt ≤ o.amount then some 0 else (coverIndex rest (amt - o.amount)).map Nat.succ

/-- Modelled from the spec: "the rate of the last tier needed to cover the
requested amount, or the last tier's rate if the whole book cannot cover it". -/
def lastTierRateSpec (book : List Offer) (amount : ℚ) : ℚ :=
  match coverIndex book amount with
  | some k => (book.getD k default).rate
  | none => (book.getLastD default).rate

/-! ### ReplaceIfCheaperApp (`replaceBorrowingIfCheaper` / `replaceBorrowing` /
`borrowsToReturn`) -/

/-- The in-flight replacement workflow record set up by `replaceBorrowing`. -/
structure Pending where
  orderIds : List Nat
  amount : ℚ
  filledCount : Nat
  filledAmount : ℚ
deriving DecidableEq

/-- The state of `ReplaceIfCheaperApp` read or written by
`replaceBorrowingIfCheaper` (time is passed in explicitly as `now`). -/
structure RState where
  borrows : List Borrow
  offers : List Offer
  pending : Option Pending
  pauseUntil : Int
  minImprovement : ℚ
  minBorrowSize : ℚ
deriving DecidableEq

/-- `App.replacementCost`: best (lowest) rate in the subset and the total
amount borrowed.  The source indexes `borrows[0]`, so `[]` maps to `(0, 0)`. -/
def replacementCost (borrows : List Borrow) : ℚ × ℚ :=
  match borrows with
  | [] => (0, 0)
  | b0 :: _ =>
      (borrows.foldl (fun best el => if el.rate < best then el.rate else best) b0.rate,
       sumAmounts borrows)

/-- `App.orderBookCheaperThan`: offers at most `rate - minImprovement`. -/
def orderBookCheaperThan (minImprovement : ℚ) (orderBook : List Offer) (rate : ℚ) : List Offer :=
  orderBook.filter (fun el => el.rate ≤ rate - minImprovement)

/-- `App.borrowFunds`: no-op below `minBorrowSize`, otherwise one socket
borrow command. -/
def borrowFundsCmds (minBorrowSize amount rate : ℚ) : List Command :=
  if amount < minBorrowSize then [] else [.borrow amount rate]

/-- The synchronous prefix of `ReplaceIfCheaperApp.replaceBorrowing` (up to
its first `await`): push `pauseUntil` forward, create the `Pending` record,
and issue the borrow command. -/
def replaceBorrowingSync (now : Int) (amount rate : ℚ) (st : RState) : RState × List Command :=
  ({ st with pauseUntil := now + 15000, pending := some ⟨[], amount, 0, 0⟩ },
   borrowFundsCmds st.minBorrowSize amount rate)

/-- The `while (i > 0)` subset-shrinking loop of `replaceBorrowingIfCheaper`,
taking prefixes of the worst-first borrow list. -/
def replaceLoop (now : Int) (st : RState) : Nat → RState × List Command
  | 0 => (st, [])
  | i + 1 =>
      let subset := st.borrows.take (i + 1)
      let cost := replacementCost subset
      let cheaperBook := orderBookCheaperThan st.minImprovement st.offers cost.1
      let available := sumOfferAmounts cheaperBook
      let borrowAmount := cost.2
      if borrowAmount ≥ st.minBorrowSize ∧ available > borrowAmount then
        let targetRate := findTargetRateToBorrow cheaperBook borrowAmount
        replaceBorrowingSync now borrowAmount targetRate st
      else
        replaceLoop now st i

/-- `ReplaceIfCheaperApp.replaceBorrowingIfCheaper`. -/
def replaceBorrowingIfCheaper (now : Int) (st : RState) : RState × List Command :=
  if now < st.pauseUntil ∨ st.pending ≠ none then (st, [])
  else
    match st.borrows, st.offers with
    | [], _ => (st, [])
    | _ :: _, [] => (st, [])
    | b0 :: _, o0 :: _ =>
        let seeking := b0.rate - st.minImprovement
        if o0.rate > seeking then (st, [])
        else replaceLoop now st st.borrows.length

/-- Number of borrow commands in a command list. -/
def countBorrows (cmds : List Command) : Nat :=
  (cmds.filter (fun c => match c with | .borrow _ _ => true | _ => false)).length

/-! ### `borrowsToReturn` combination search -/

/-- The two outer variables mutated by `findBestComboOfReturns`:
`smallestDiff` and `toReturn`. -/
structure ComboState where
  smallestDiff : ℚ
  toReturn : List Borrow
deriving DecidableEq

/-- The `if (result) { const diff = ...; if (diff < smallestDiff) {...} }`
body of the loop: a truthy (non-zero) recursion result whose overshoot beats
the best so far replaces `smallestDiff` and `toReturn`. -/
def comboAccept (target : ℚ) (next : List Borrow) (st1 : ComboState) :
    Option ℚ → ComboState
  | some result =>
      if result = 0 then st1
      else if result - target < st1.smallestDiff then ⟨result - target, next⟩ else st1
  | none => st1

mutual

/-- `findBestComboOfReturns(items, target, possible)`: returns the partial
sum when `possible` already reaches the target, otherwise runs the `for`
loop; the state carries the captured `smallestDiff` / `toReturn`. -/
def findBestCombo (target tolerance : ℚ) (items possible : List Borrow) (st : ComboState) :
    Option ℚ × ComboState :=
  let s := sumAmounts possible
  if s ≥ target then (some s, st)
  else comboLoop target tolerance items possible st
termination_by (items.length, 1)

/-- The `for (let i = 0; ...)` loop of `findBestComboOfReturns`: recurse on
`items.slice(i + 1)` with `possible.concat([items[i]])`, accept a combo whose
truthy result improves `smallestDiff`, and stop early below `tolerance`. -/
def comboLoop (target tolerance : ℚ) (items possible : List Borrow) (st : ComboState) :
    Option ℚ × ComboState :=
  match items with
  | [] => (none, st)
  | x :: rest =>
      let next := possible ++ [x]
      let r1 := findBestCombo target tolerance rest next st
      let st2 := comboAccept target next r1.2 r1.1
      if st2.smallestDiff < tolerance then (none, st2)
      else comboLoop target tolerance rest possible st2
termination_by (items.length, 0)

end

/-- `ReplaceIfCheaperApp.borrowsToReturn`. -/
def borrowsToReturn (pending : Option Pending) (toReplace : List Borrow) : List Borrow :=
  match pending with
  | none => []
  | some p =>
      if p.filledCount = 0 then []
      else if toReplace.length = 1 then toReplace
      else
        let total := toReplace.foldl (fun a el => a + el.amount) 0
        let tolerance := total / 1000000
        (findBestCombo p.filledAmount tolerance toReplace [] ⟨total, toReplace⟩).2.toReturn

/-! ### TargetApp (`onFillOrder` / `returnExcessBorrows` / `onTimer`) -/

/-- The `TargetApp` state touched by fills and the timer tick. -/
structure TState where
  borrows : List Borrow
  orders : List Order
  tooExpensive : List Borrow
  pendingReturn : ℚ
  filledSoFar : ℚ
deriving DecidableEq

/-- Removing every entry with the id of a list member strictly shrinks it. -/
theorem length_filter_ne_id_lt {l : List Borrow} {x : Borrow} (hx : x ∈ l) :
    (l.filter (fun b => b.id ≠ x.id)).length < l.length := by
  induction l with
  | nil => cases hx
  | cons a t ih =>
      by_cases hid : a.id = x.id
      · have hda : (decide (a.id ≠ x.id)) = false := by simp [hid]
        simp only [List.filter_cons, hda, List.length_cons, if_false, Bool.false_eq_true]
        exact Nat.lt_succ_of_le (List.length_filter_le _ _)
      · have hmem : x ∈ t := by
          cases List.mem_cons.mp hx with
          | inl h => exact absurd (congrArg Borrow.id h.symm) hid
          | inr h => exact h
        have hda : (decide (a.id ≠ x.id)) = true := by simp [hid]
        simp only [List.filter_cons, hda, if_true, List.length_cons]
        exact Nat.succ_lt_succ (ih hmem)

/-- `TargetApp.returnExcessBorrows`: while a borrow in `tooExpensive` is no
bigger than `pendingReturn + 1`, subtract its amount (clamping at 0), drop it
from the set, and issue a return for the matching active borrow. -/
def returnExcessBorrows (st : TState) : TState × List Command :=
  match h : st.tooExpensive.find? (fun b => b.amount ≤ st.pendingReturn + 1) with
  | none => (st, [])
  | some borrow =>
      let pr0 := st.pendingReturn - borrow.amount
      let pr := if pr0 < 0 then 0 else pr0
      let te := st.tooExpensive.filter (fun b => b.id ≠ borrow.id)
      let cmds :=
        match st.borrows.find?
            (fun b => b.rateFixed = borrow.rateFixed ∧ b.amount = borrow.amount ∧ b.period = borrow.period) with
        | some returnMe => [Command.returnBorrow returnMe.id]
        | none => []
      let st' := { st with pendingReturn := pr, tooExpensive := te }
      if pr > 0 ∧ te ≠ [] then
        let rec2 := returnExcessBorrows st'
        (rec2.1, cmds ++ rec2.2)
      else (st', cmds)
termination_by st.tooExpensive.length
decreasing_by
  exact length_filter_ne_id_lt (List.mem_of_find?_eq_some h)

/-- The clamped new `pendingReturn` after returning `borrow`
(`this.pendingReturn -= borrow.amount; if (< 0) = 0`). -/
def clampPR (st : TState) (borrow : Borrow) : ℚ :=
  if st.pendingReturn - borrow.amount < 0 then 0 else st.pendingReturn - borrow.amount

/-- `tooExpensive` with the returned borrow's id removed. -/
def dropBorrow (st : TState) (borrow : Borrow) : List Borrow :=
  st.tooExpensive.filter (fun b => b.id ≠ borrow.id)

/-- The return command issued for the active borrow matching the returned
one by rate, amount and period (none when no match is found). -/
def returnCmds (st : TState) (borrow : Borrow) : List Command :=
  match st.borrows.find?
      (fun b => b.rateFixed = borrow.rateFixed ∧ b.amount = borrow.amount ∧ b.period = borrow.period) with
  | some returnMe => [Command.returnBorrow returnMe.id]
  | none => []

/-- The state after one `returnExcessBorrows` loop iteration. -/
def stepState (st : TState) (borrow : Borrow) : TState :=
  { st with pendingReturn := clampPR st borrow, tooExpensive := dropBorrow st borrow }

/-- The accounting step of `TargetApp.onFillOrder` when a new fill is seen:
`filledSoFar := |filled|` and `pendingReturn += executed`. -/
def fillAccount (order : Order) (st : TState) : TState :=
  { st with
    filledSoFar := |order.filled|
    pendingReturn := st.pendingReturn + (|order.filled| - st.filledSoFar) }

/-- `TargetApp.onFillOrder` (the body run under the fill lock). -/
def onFillOrder (order : Order) (st : TState) : TState × List Command :=
  if |order.filled| > st.filledSoFar then
    returnExcessBorrows (fillAccount order st)
  else (st, [])

/-- `TargetApp.cancelAllOrders`: one cancel command over all open order ids
(none when there are no orders). -/
def cancelAllOrdersCmds (st : TState) : List Command :=
  if st.orders = [] then [] else [.cancelOffers (st.orders.map (fun o => o.id))]

/-- The `for (const ratePercent of this.targetRates)` walk of
`TargetApp.onTimer`: highest target rate first, stop at the first tier where
enough excess exists to borrow. -/
def timerLoop (minBorrowSize : ℚ) : List ℚ → TState → TState × List Command
  | [], st => (st, [])
  | ratePercent :: rest, st =>
      let rate := ratePercent / 365 / 100
      let te := st.borrows.filter (fun b => b.rate > rate)
      let st' := { st with tooExpensive := te }
      let amountToReplace := sumAmounts te
      if te.length > 0 then
        let toBorrow := amountToReplace - st'.pendingReturn
        if toBorrow > 0 ∧ toBorrow ≥ minBorrowSize then
          (st', borrowFundsCmds minBorrowSize toBorrow rate)
        else timerLoop minBorrowSize rest st'
      else timerLoop minBorrowSize rest st'

/-- The borrow-selection block of `TargetApp.onTimer` (the second
`runLocked` body): reset per-cycle tracking, stop when nothing is borrowed,
otherwise walk the target-rate ladder. -/
def onTimerSelect (minBorrowSize : ℚ) (targetRates : List ℚ) (st : TState) : TState × List Command :=
  let st0 := { st with tooExpensive := ([] : List Borrow), filledSoFar := 0 }
  if st0.borrows = [] then (st0, [])
  else timerLoop minBorrowSize targetRates st0

/-- A whole `TargetApp.onTimer` tick's outbound commands: first the
cancel-all-orders block, then the borrow-selection block. -/
def onTimerCmds (minBorrowSize : ℚ) (targetRates : List ℚ) (st : TState) : List Command :=
  cancelAllOrdersCmds st ++ (onTimerSelect minBorrowSize targetRates st).2

/-! ### Serialization lock (`util/lock.js`) -/

/-- A task handed to `Lock.runLocked`: its id and the outcome of its `fn`
(a value, or the error it throws). -/
structure LockTask where
  id : Nat
  result : Except String Int

/-- The lock's own fields (`locked`, `waiting`) plus the task currently
holding the lock. -/
structure SimState where
  locked : Bool
  waiting : List LockTask
  running : Option LockTask

/-- A fresh lock: unlocked with an empty resolve queue. -/
def initSim : SimState := ⟨false, [], none⟩

/-- `Lock.lock()` as called at the start of `runLocked(t)`: if locked, the
task's resolver is appended to `waiting`; otherwise `locked := true` and the
task starts running. -/
def callTask (st : SimState) (t : LockTask) : SimState :=
  if st.locked then { st with waiting := st.waiting ++ [t] }
  else { st with locked := true, running := some t }

/-- `Lock.unlock()`: resolve (admit) the head waiter if any, otherwise clear
`locked`.  `runLocked` reaches this on both the success and the throw path. -/
def unlockStep (st : SimState) : SimState :=
  match st.waiting with
  | [] => { st with locked := false, running := none }
  | w :: rest => { st with waiting := rest, running := some w }

/-- Run the currently admitted task to completion, then each queued task in
turn, recording `(id, outcome)` in execution order. -/
def drain (st : SimState) : SimState × List (Nat × Except String Int) :=
  match h : st.running with
  | none => (st, [])
  | some t =>
      let rec2 := drain (unlockStep st)
      (rec2.1, (t.id, t.result) :: rec2.2)
termination_by st.waiting.length + (match st.running with | some _ => 1 | none => 0)
decreasing_by
  cases hw : st.waiting with
  | nil => simp [unlockStep, h, hw]
  | cons w rest => simp [unlockStep, h, hw]

/-- Issue `runLocked` for every task in call order, then let the cooperative
scheduler run everything to completion. -/
def runLockedAll (ts : List LockTask) : SimState × List (Nat × Except String Int) :=
  drain (ts.foldl callTask initSim)

/-! ### Gateway mutating commands under the dry-run flag
(`PrivateSocket.borrowFunds` / `borrowReturn` / `cancelOffers`) -/

/-- Messages written to the authenticated socket by mutating commands. -/
inductive WireMsg where
  | fon (amount rate : ℚ) (period : Int) : WireMsg
  | foc (id : Nat) : WireMsg
deriving DecidableEq

/-- Signed REST calls made by mutating commands. -/
inductive RestCall where
  | fundingClose (id : Nat) : RestCall
deriving DecidableEq

/-- The log lines the mutating commands can produce. -/
inductive LogLine where
  | dryRunNoBorrow : LogLine
  | dryRunNoReturn (n : Nat) : LogLine
  | dryRunNoCancel : LogLine
  | requestReturn (id : Nat) : LogLine
  | cancelCount (n : Nat) : LogLine
deriving DecidableEq

/-- Everything observable a gateway command emits. -/
structure GatewayOut where
  msgs : List WireMsg
  calls : List RestCall
  logs : List LogLine
deriving DecidableEq

/-- `PrivateSocket.borrowFunds`: dry run logs and sends nothing; live mode
sends one `fon` socket message (amount negated, period 2). -/
def psBorrowFunds (dryRun : Bool) (amount rate : ℚ) : GatewayOut :=
  if dryRun then ⟨[], [], [.dryRunNoBorrow]⟩
  else ⟨[.fon (-amount) rate 2], [], []⟩

/-- `PrivateSocket.borrowReturn`: dry run logs and calls nothing; live mode
makes one `funding/close` REST call per id. -/
def psBorrowReturn (dryRun : Bool) (ids : List Nat) : GatewayOut :=
  if dryRun then ⟨[], [], [.dryRunNoReturn ids.length]⟩
  else ⟨[], ids.map .fundingClose, ids.map .requestReturn⟩

/-- `PrivateSocket.cancelOffers`: dry run logs and sends nothing; live mode
sends one `foc` socket message per id (nothing at all for an empty list). -/
def psCancelOffers (dryRun : Bool) (ids : List Nat) : GatewayOut :=
  if dryRun then ⟨[], [], [.dryRunNoCancel]⟩
  else if ids = [] then ⟨[], [], []⟩
  else ⟨ids.map .foc, [], [.cancelCount ids.length]⟩

/-! ### Consistency predicates for the borrow running totals -/

/-- The store's running totals agree with a fresh recomputation from the
borrow collection. -/
def consistentStore (st : BorrowStore) : Prop :=
  st.netUsing = freshNet .inUse st.borrows ∧ st.netUnused = freshNet .unused st.borrows

/-- An event the incremental totals survive: an upsert that introduces a new
id, or a cancel whose payload matches the single stored entry with that id. -/
def freshEvent (st : BorrowStore) : BorrowEvent → Prop
  | .update b => ∀ x ∈ st.borrows, x.id ≠ b.id
  | .cancel b => st.borrows.filter (fun x => x.id = b.id) = [b]

instance (st : BorrowStore) (e : BorrowEvent) : Decidable (freshEvent st e) :=
  match e with
  | .update _ => inferInstanceAs (Decidable (∀ _ ∈ _, _))
  | .cancel _ => inferInstanceAs (Decidable (_ = _))

/-- Every event of the sequence is admissible for the state it meets. -/
def okSeq : BorrowStore → List BorrowEvent → Prop
  | _, [] => True
  | st, e :: rest => freshEvent st e ∧ okSeq (applyBorrowEvent st e) rest

instance decOkSeq : (st : BorrowStore) → (evs : List BorrowEvent) → Decidable (okSeq st evs)
  | _, [] => .isTrue trivial
  | st, e :: rest =>
      have : Decidable (okSeq (applyBorrowEvent st e) rest) := decOkSeq _ rest
      inferInstanceAs (Decidable (_ ∧ _))

/-! ### Concrete inputs used by examples, witnesses and the counterexample -/

/-- The spec's two-tier example book: rate 1 with 50 available, rate 2 with
60 available. -/
def exampleBook : List Offer := [⟨1, 2, 1, 50⟩, ⟨2, 2, 1, 60⟩]

/-- A borrow of 100 in use at daily rate 0.0003. -/
def exBorrow : Borrow := ⟨1, .inUse, 3 / 10000, 3 / 10000, 2, 100⟩

/-- Upserting the same borrow id twice. -/
def dupEvents : List BorrowEvent := [.update exBorrow, .update exBorrow]

/-- A second borrow, unused, with a fresh id. -/
def exBorrow2 : Borrow := ⟨2, .unused, 2 / 10000, 2 / 10000, 30, 250⟩

/-- An admissible event sequence: two fresh upserts and a faithful cancel. -/
def okEvents : List BorrowEvent := [.update exBorrow, .update exBorrow2, .cancel exBorrow]

/-- A replace-strategy state that is mid-replacement (`pending` set). -/
def exRState : RState :=
  { borrows := [exBorrow]
    offers := exampleBook
    pending := some ⟨[], 100, 0, 0⟩
    pauseUntil := 0
    minImprovement := 1 / 2000000
    minBorrowSize := 150
  }

/-- Three borrows totalling 1000, most expensive first. -/
def exReplace : List Borrow :=
  [⟨1, .inUse, 3, 3, 2, 500⟩, ⟨2, .inUse, 2, 2, 2, 300⟩, ⟨3, .inUse, 1, 1, 2, 200⟩]

/-- A pending replacement that has seen fills worth 400. -/
def exPending : Pending := ⟨[], 1000, 2, 400⟩

/-- A target-strategy state holding the three example borrows. -/
def exTState : TState := ⟨exReplace, [], [], 0, 0⟩

/-- An order whose fill events will be replayed. -/
def exOrder : Order := ⟨7, -500, -440, -60⟩

/-- A target-strategy state that has already accounted fills worth 100. -/
def exTStateFilled : TState := ⟨exReplace, [], [], 0, 100⟩

/-! ## Lemmas about amount sums -/

theorem foldl_add_amount (l : List Borrow) (x : ℚ) :
    l.foldl (fun total el => total + el.amount) x = x + sumAmounts l := by
  induction l generalizing x with
  | nil => simp [sumAmounts]
  | cons b t ih =>
      simp only [sumAmounts, List.foldl_cons]
      rw [ih (x + b.amount), ih (0 + b.amount)]
      simp only [sumAmounts]
      ring

theorem sumAmounts_nil : sumAmounts [] = 0 := rfl

theorem sumAmounts_cons (b : Borrow) (l : List Borrow) :
    sumAmounts (b :: l) = b.amount + sumAmounts l := by
  have h := foldl_add_amount l (0 + b.amount)
  simp only [sumAmounts, List.foldl_cons] at h ⊢
  rw [h]
  ring

theorem sumAmounts_append (l₁ l₂ : List Borrow) :
    sumAmounts (l₁ ++ l₂) = sumAmounts l₁ + sumAmounts l₂ := by
  induction l₁ with
  | nil => simp [sumAmounts_nil]
  | cons b t ih => simp only [List.cons_append, sumAmounts_cons, ih]; ring

theorem sumAmounts_nonneg {l : List Borrow} (h : ∀ b ∈ l, 0 ≤ b.amount) :
    0 ≤ sumAmounts l := by
  induction l with
  | nil => simp [sumAmounts_nil]
  | cons b t ih =>
      rw [sumAmounts_cons]
      have hb := h b (List.mem_cons_self b t)
      have ht := ih (fun x hx => h x (List.mem_cons_of_mem b hx))
      linarith

theorem sumAmounts_eq_map_sum (l : List Borrow) :
    sumAmounts l = (l.map Borrow.amount).sum := by
  induction l with
  | nil => simp [sumAmounts_nil]
  | cons b t ih => simp [sumAmounts_cons, ih]

theorem sumAmounts_perm {l₁ l₂ : List Borrow} (h : l₁.Perm l₂) :
    sumAmounts l₁ = sumAmounts l₂ := by
  rw [sumAmounts_eq_map_sum, sumAmounts_eq_map_sum]
  exact (h.map Borrow.amount).sum_eq

/-! ## Claim theorems -/

theorem countBorrows_replaceLoop (now : Int) (st : RState) :
    ∀ i, countBorrows (replaceLoop now st i).2 ≤ 1 := by
  intro i
  induction i with
  | zero => simp [replaceLoop, countBorrows]
  | succ i ih =>
      rw [replaceLoop]
      split
      · dsimp only [replaceBorrowingSync, borrowFundsCmds]
        split
        · simp [countBorrows]
        · simp [countBorrows]
      · exact ih

/-- Claim C2: while a `PendingReplacement` is active (or the engine is
paused), `replaceBorrowingIfCheaper` returns with the state untouched and no
command issued; and no single trigger ever issues more than one borrow
command. -/
theorem claim2_at_most_one_pending :
    (∀ (now : Int) (st : RState), st.pending ≠ none ∨ now < st.pauseUntil →
      replaceBorrowingIfCheaper now st = (st, [])) ∧
    (∀ (now : Int) (st : RState), countBorrows (replaceBorrowingIfCheaper now st).2 ≤ 1) := by
  constructor
  · intro now st h
    have hguard : now < st.pauseUntil ∨ st.pending ≠ none := h.symm
    simp [replaceBorrowingIfCheaper, hguard]
  · intro now st
    rw [replaceBorrowingIfCheaper]
    by_cases hguard : now < st.pauseUntil ∨ st.pending ≠ none
    · simp [hguard, countBorrows]
    · simp only [hguard, if_false]
      cases hb : st.borrows with
      | nil => simp [countBorrows]
      | cons b0 tb =>
          cases ho : st.offers with
          | nil => simp [countBorrows]
          | cons o0 os =>
              dsimp only
              by_cases hseek : o0.rate > b0.rate - st.minImprovement
              · simp [hseek, countBorrows]
              · simp only [hseek, if_false]
                exact countBorrows_replaceLoop now st _

/-- Witness for C2 at a state with an active pending replacement. -/
theorem claim2_witness :
    replaceBorrowingIfCheaper 100 exRState = (exRState, []) :=
  claim2_at_most_one_pending.1 100 exRState (Or.inl (by decide))

theorem findFillRateAux_nonpos :
    ∀ (book : List Offer) (r bal : ℚ), bal ≤ 0 → (∀ o ∈ book, 0 ≤ o.amount) →
      findFillRateAux book r bal = r := by
  intro book
  induction book with
  | nil => intro r bal _ _; rfl
  | cons o rest ih =>
      intro r bal hbal hamts
      have hno : ¬ bal > 0 := not_lt.mpr hbal
      have ho := hamts o (List.mem_cons_self o rest)
      have hrest : ∀ x ∈ rest, 0 ≤ x.amount :=
        fun x hx => hamts x (List.mem_cons_of_mem o hx)
      simp only [findFillRateAux, hno, if_false]
      exact ih r (bal - o.amount) (by linarith) hrest

theorem coverIndex_cons (o : Offer) (rest : List Offer) (amt : ℚ) :
    coverIndex (o :: rest) amt =
      if amt ≤ o.amount then some 0 else (coverIndex rest (amt - o.amount)).map Nat.succ := rfl

theorem lastTierRateSpec_eq (book : List Offer) (amount : ℚ) :
    lastTierRateSpec book amount =
      match coverIndex book amount with
      | some k => (book.getD k default).rate
      | none => (book.getLastD default).rate := rfl

theorem findFillRateAux_spec :
    ∀ (book : List Offer) (r bal : ℚ), book ≠ [] → 0 < bal →
      (∀ o ∈ book, 0 ≤ o.amount) →
      findFillRateAux book r bal = lastTierRateSpec book bal := by
  intro book
  induction book with
  | nil => intro r bal hne _ _; exact absurd rfl hne
  | cons o rest ih =>
      intro r bal _ hbal hamts
      have hrest : ∀ x ∈ rest, 0 ≤ x.amount :=
        fun x hx => hamts x (List.mem_cons_of_mem o hx)
      simp only [findFillRateAux, hbal, if_true]
      by_cases hle : bal ≤ o.amount
      · have hnp : bal - o.amount ≤ 0 := by linarith
        rw [findFillRateAux_nonpos rest o.rate (bal - o.amount) hnp hrest]
        rw [lastTierRateSpec_eq, coverIndex_cons, if_pos hle]
        simp [List.getD_cons_zero]
      · have hbal' : 0 < bal - o.amount := by
          push_neg at hle
          linarith
        cases rest with
        | nil =>
            show findFillRateAux [] o.rate (bal - o.amount) = _
            rw [lastTierRateSpec_eq, coverIndex_cons, if_neg hle]
            simp [coverIndex, findFillRateAux, List.getLastD_cons]
        | cons r2 rest2 =>
            rw [ih o.rate (bal - o.amount) (List.cons_ne_nil r2 rest2) hbal' hrest]
            rw [lastTierRateSpec_eq, lastTierRateSpec_eq,
              coverIndex_cons o (r2 :: rest2) bal, if_neg hle]
            cases hci : coverIndex (r2 :: rest2) (bal - o.amount) with
            | some k => simp [hci, List.getD_cons_succ]
            | none => simp [hci, List.getLastD_cons]

/-- Claim C3: `findTargetRateToBorrow` returns the rate of the last tier
needed to cover the requested amount, or the last tier's rate if the book
cannot cover it; in particular the spec's two examples give rates 2 and 1. -/
theorem claim3_findFillRate :
    (∀ (book : List Offer) (amount : ℚ), book ≠ [] →
      List.Sorted (fun a b : Offer => a.rate ≤ b.rate) book →
      (∀ o ∈ book, 0 ≤ o.amount) → 0 < amount →
      findTargetRateToBorrow book amount = lastTierRateSpec book amount) ∧
    findTargetRateToBorrow exampleBook 80 = 2 ∧
    findTargetRateToBorrow exampleBook 40 = 1 := by
  refine ⟨?_, by norm_num [findTargetRateToBorrow, findFillRateAux, exampleBook],
    by norm_num [findTargetRateToBorrow, findFillRateAux, exampleBook]⟩
  intro book amount hne _hsorted hamts hpos
  cases book with
  | nil => exact absurd rfl hne
  | cons b0 rest =>
      show findFillRateAux (b0 :: rest) b0.rate amount = _
      exact findFillRateAux_spec (b0 :: rest) b0.rate amount hne hpos hamts

/-- Witness for C3: the general characterization applied to the spec's
example book with a requested amount of 80. -/
theorem claim3_witness :
    findTargetRateToBorrow exampleBook 80 = lastTierRateSpec exampleBook 80 :=
  claim3_findFillRate.1 exampleBook 80 (by simp [exampleBook])
    (by norm_num [exampleBook, List.Sorted])
    (by norm_num [exampleBook]) (by norm_num)

theorem pairwiseRate_onUpdateOffer {l : List Offer} (o : Offer)
    (h : l.Pairwise (fun a b => a.rate ≠ b.rate)) :
    (onUpdateOffer l o).Pairwise (fun a b => a.rate ≠ b.rate) := by
  unfold onUpdateOffer sortOffers
  have hperm := List.perm_insertionSort offerLe ((l.filter (fun x => x.rate ≠ o.rate)) ++ [o])
  refine (hperm.pairwise_iff (fun hab => hab.symm)).mpr ?_
  rw [List.pairwise_append]
  refine ⟨List.Pairwise.sublist (List.filter_sublist l) h, List.pairwise_singleton _ _, ?_⟩
  intro a ha b hb
  have hb' : b = o := by simpa using hb
  subst hb'
  exact of_decide_eq_true (List.mem_filter.mp ha).2

theorem claim7_offers_invariant_aux :
    ∀ (evs : List OfferEvent) (st : List Offer),
      st.Pairwise (fun a b => a.rate ≠ b.rate) → List.Sorted offerLe st →
      ((evs.foldl applyOfferEvent st).Pairwise (fun a b => a.rate ≠ b.rate) ∧
        List.Sorted offerLe (evs.foldl applyOfferEvent st)) := by
  intro evs
  induction evs with
  | nil => intro st h1 h2; exact ⟨h1, h2⟩
  | cons e rest ih =>
      intro st h1 h2
      rw [List.foldl_cons]
      cases e with
      | update o =>
          exact ih _ (pairwiseRate_onUpdateOffer o h1)
            (List.sorted_insertionSort offerLe _)
      | cancel o =>
          exact ih _ (List.Pairwise.sublist (List.filter_sublist st) h1)
            (List.Pairwise.sublist (List.filter_sublist st) h2)

/-- Claim C7: after any sequence of offer updates and cancels, the offer
book holds at most one entry per rate and is sorted ascending by rate with
ties broken by descending period. -/
theorem claim7_offers_sorted_unique (evs : List OfferEvent) :
    (applyOfferEvents evs).Pairwise (fun a b => a.rate ≠ b.rate) ∧
    List.Sorted offerLe (applyOfferEvents evs) :=
  claim7_offers_invariant_aux evs [] List.Pairwise.nil List.sorted_nil

theorem foldl_callTask_locked (ts : List LockTask) :
    ∀ (t : LockTask) (ws : List LockTask),
      ts.foldl callTask ⟨true, ws, some t⟩ = ⟨true, ws ++ ts, some t⟩ := by
  induction ts with
  | nil => intro t ws; simp
  | cons x rest ih =>
      intro t ws
      rw [List.foldl_cons]
      have hcall : callTask ⟨true, ws, some t⟩ x = ⟨true, ws ++ [x], some t⟩ := by
        simp [callTask]
      rw [hcall, ih]
      simp

theorem drain_locked :
    ∀ (ws : List LockTask) (t : LockTask),
      drain ⟨true, ws, some t⟩ =
        (⟨false, [], none⟩, (t.id, t.result) :: ws.map (fun w => (w.id, w.result))) := by
  intro ws
  induction ws with
  | nil =>
      intro t
      rw [drain]
      simp [unlockStep, drain]
  | cons w rest ih =>
      intro t
      rw [drain]
      have hu : unlockStep ⟨true, w :: rest, some t⟩ = ⟨true, rest, some w⟩ := by
        simp [unlockStep]
      simp only [hu, ih w]
      simp

/-- Claim C6: `runLocked` admits tasks one at a time in call order, each
call yields exactly its own task's outcome (value or rethrown error), and a
throwing task does not leave the lock held: every queued task still runs and
the lock ends released. -/
theorem claim6_lock_serialises (ts : List LockTask) :
    (runLockedAll ts).2 = ts.map (fun t => (t.id, t.result)) ∧
    (runLockedAll ts).1.locked = false ∧
    (runLockedAll ts).1.waiting = [] ∧
    (runLockedAll ts).1.running = none := by
  cases ts with
  | nil => simp [runLockedAll, initSim, drain]
  | cons t rest =>
      unfold runLockedAll
      rw [List.foldl_cons]
      have h1 : callTask initSim t = ⟨true, [], some t⟩ := by simp [callTask, initSim]
      rw [h1, foldl_callTask_locked rest t [], List.nil_append, drain_locked rest t]
      simp

theorem returnExcessBorrows_none {st : TState}
    (h : st.tooExpensive.find? (fun b => b.amount ≤ st.pendingReturn + 1) = none) :
    returnExcessBorrows st = (st, []) := by
  rw [returnExcessBorrows.eq_def, h]

theorem returnExcessBorrows_some {st : TState} {borrow : Borrow}
    (h : st.tooExpensive.find? (fun b => b.amount ≤ st.pendingReturn + 1) = some borrow) :
    returnExcessBorrows st =
      if clampPR st borrow > 0 ∧ dropBorrow st borrow ≠ [] then
        ((returnExcessBorrows (stepState st borrow)).1,
          returnCmds st borrow ++ (returnExcessBorrows (stepState st borrow)).2)
      else (stepState st borrow, returnCmds st borrow) := by
  rw [returnExcessBorrows.eq_def, h]
  rfl

theorem clampPR_nonneg (st : TState) (borrow : Borrow) : 0 ≤ clampPR st borrow := by
  unfold clampPR
  by_cases hneg : st.pendingReturn - borrow.amount < 0
  · simp [hneg]
  · simp only [hneg, if_false]
    linarith [not_lt.mp hneg]

theorem returnExcess_filledSoFar (st : TState) :
    (returnExcessBorrows st).1.filledSoFar = st.filledSoFar := by
  induction st using returnExcessBorrows.induct with
  | case1 st h =>
      rw [returnExcessBorrows_none h]
  | case2 st borrow h =>
      rename_i pr0 pr te st' hcond ih
      have hcond' : clampPR st borrow > 0 ∧ dropBorrow st borrow ≠ [] := hcond
      rw [returnExcessBorrows_some h, if_pos hcond']
      exact ih
  | case3 st borrow h =>
      rename_i pr0 pr te hcond
      have hcond' : ¬(clampPR st borrow > 0 ∧ dropBorrow st borrow ≠ []) :=
        fun hc => hcond hc
      rw [returnExcessBorrows_some h, if_neg hcond']
      rfl

theorem returnExcess_nonneg (st : TState) :
    0 ≤ st.pendingReturn → 0 ≤ (returnExcessBorrows st).1.pendingReturn := by
  induction st using returnExcessBorrows.induct with
  | case1 st h =>
      intro h0
      rw [returnExcessBorrows_none h]
      exact h0
  | case2 st borrow h =>
      rename_i pr0 pr te st' hcond ih
      intro _h0
      have hcond' : clampPR st borrow > 0 ∧ dropBorrow st borrow ≠ [] := hcond
      rw [returnExcessBorrows_some h, if_pos hcond']
      exact ih (clampPR_nonneg st borrow)
  | case3 st borrow h =>
      rename_i pr0 pr te hcond
      intro _h0
      have hcond' : ¬(clampPR st borrow > 0 ∧ dropBorrow st borrow ≠ []) :=
        fun hc => hcond hc
      rw [returnExcessBorrows_some h, if_neg hcond']
      exact clampPR_nonneg st borrow


/-- Claim C10: `pendingReturn` stays nonnegative across every
`returnExcessBorrows` and `onFillOrder` invocation, thanks to the
select-only-small-enough-borrows guard and the clamp at zero. -/
theorem claim10_pendingReturn_nonneg :
    (∀ st : TState, 0 ≤ st.pendingReturn → 0 ≤ (returnExcessBorrows st).1.pendingReturn) ∧
    (∀ (o : Order) (st : TState), 0 ≤ st.pendingReturn →
      0 ≤ (onFillOrder o st).1.pendingReturn) := by
  refine ⟨fun st h => returnExcess_nonneg st h, ?_⟩

  intro o st h
  unfold onFillOrder
  by_cases hg : |o.filled| > st.filledSoFar
  · rw [if_pos hg]
    apply returnExcess_nonneg
    show 0 ≤ st.pendingReturn + (|o.filled| - st.filledSoFar)
    linarith
  · rw [if_neg hg]
    exact h

/-- Witness for C10 on a concrete fill against the example state. -/
theorem claim10_witness : 0 ≤ (onFillOrder exOrder exTState).1.pendingReturn :=
  claim10_pendingReturn_nonneg.2 exOrder exTState (by norm_num [exTState])

/-- Claim C9: a replayed fill notification (cumulative filled not above
`filledSoFar`) leaves the state untouched; a genuinely new fill sets
`filledSoFar` to the new cumulative value and, at the accounting step, grows
`pendingReturn` by exactly the newly executed amount; hence delivering the
same fill event twice is a no-op the second time. -/
theorem claim9_fill_idempotent :
    (∀ (o : Order) (st : TState), |o.filled| ≤ st.filledSoFar → onFillOrder o st = (st, [])) ∧
    (∀ (o : Order) (st : TState), |o.filled| > st.filledSoFar →
      (fillAccount o st).pendingReturn = st.pendingReturn + (|o.filled| - st.filledSoFar) ∧
      (fillAccount o st).filledSoFar = |o.filled| ∧
      onFillOrder o st = returnExcessBorrows (fillAccount o st)) ∧
    (∀ (o : Order) (st : TState),
      onFillOrder o (onFillOrder o st).1 = ((onFillOrder o st).1, [])) := by
  have hskip : ∀ (o : Order) (st : TState), |o.filled| ≤ st.filledSoFar →
      onFillOrder o st = (st, []) := by
    intro o st h
    unfold onFillOrder
    rw [if_neg (not_lt.mpr h)]
  refine ⟨hskip, ?_, ?_⟩
  · intro o st hg
    refine ⟨rfl, rfl, ?_⟩
    unfold onFillOrder
    rw [if_pos hg]
  · intro o st
    by_cases hg : |o.filled| > st.filledSoFar
    · have h1 : (onFillOrder o st).1 = (returnExcessBorrows (fillAccount o st)).1 := by
        unfold onFillOrder
        rw [if_pos hg]
      apply hskip
      rw [h1, returnExcess_filledSoFar]
      show |o.filled| ≤ |o.filled|
      exact le_refl _
    · have h1 : onFillOrder o st = (st, []) := by
        unfold onFillOrder
        rw [if_neg hg]
      rw [h1]
      exact hskip o st (not_lt.mp hg)

/-- Witness for C9: replaying a fill already covered by `filledSoFar` is a
no-op. -/
theorem claim9_witness : onFillOrder exOrder exTStateFilled = (exTStateFilled, []) :=
  claim9_fill_idempotent.1 exOrder exTStateFilled (by norm_num [exOrder, exTStateFilled])

theorem countBorrows_append (l₁ l₂ : List Command) :
    countBorrows (l₁ ++ l₂) = countBorrows l₁ + countBorrows l₂ := by
  unfold countBorrows
  rw [List.filter_append, List.length_append]

theorem countBorrows_timerLoop (minBS : ℚ) :
    ∀ (rates : List ℚ) (st : TState), countBorrows (timerLoop minBS rates st).2 ≤ 1 := by
  intro rates
  induction rates with
  | nil => intro st; simp [timerLoop, countBorrows]
  | cons ratePercent rest ih =>
      intro st
      rw [timerLoop]
      split
      · dsimp only
        split
        · dsimp only [borrowFundsCmds]
          split
          · simp [countBorrows]
          · simp [countBorrows]
        · exact ih _
      · exact ih _

theorem timerLoop_first (minBS : ℚ) :
    ∀ (pre : List ℚ) (r : ℚ) (post : List ℚ) (st : TState), 0 < minBS →
      (∀ r' ∈ pre, st.borrows.filter (fun b => b.rate > r' / 365 / 100) = []) →
      st.borrows.filter (fun b => b.rate > r / 365 / 100) ≠ [] →
      minBS ≤ sumAmounts (st.borrows.filter (fun b => b.rate > r / 365 / 100)) -
        st.pendingReturn →
      (timerLoop minBS (pre ++ r :: post) st).2 =
        [Command.borrow
          (sumAmounts (st.borrows.filter (fun b => b.rate > r / 365 / 100)) - st.pendingReturn)
          (r / 365 / 100)] := by
  intro pre
  induction pre with
  | nil =>
      intro r post st hmin hpre hne hge
      rw [List.nil_append, timerLoop]
      have hlen : (st.borrows.filter (fun b => b.rate > r / 365 / 100)).length > 0 :=
        List.length_pos.mpr hne
      rw [if_pos hlen]
      have hcond : sumAmounts (st.borrows.filter (fun b => b.rate > r / 365 / 100)) -
          st.pendingReturn > 0 ∧
          sumAmounts (st.borrows.filter (fun b => b.rate > r / 365 / 100)) -
          st.pendingReturn ≥ minBS := ⟨by linarith, hge⟩
      rw [if_pos hcond]
      show borrowFundsCmds minBS _ _ = _
      unfold borrowFundsCmds
      rw [if_neg (not_lt.mpr hge)]
  | cons p pre' ih =>
      intro r post st hmin hpre hne hge
      rw [List.cons_append, timerLoop]
      have hp : st.borrows.filter (fun b => b.rate > p / 365 / 100) = [] :=
        hpre p (List.mem_cons_self p pre')
      rw [hp]
      rw [if_neg (by simp)]
      exact ih r post _ hmin (fun r' h' => hpre r' (List.mem_cons_of_mem p h')) hne hge

/-- Claim C5: an Algorithm B timer tick issues at most one borrow command,
and at the first target rate some borrow exceeds, when the excess amount
minus the pending return reaches `minBorrowSize`, the tick issues exactly
one order for that remainder at that target rate. -/
theorem claim5_single_tier_per_tick :
    (∀ (minBS : ℚ) (rates : List ℚ) (st : TState),
      countBorrows (onTimerCmds minBS rates st) ≤ 1) ∧
    (∀ (minBS r : ℚ) (pre post : List ℚ) (st : TState), 0 < minBS →
      (∀ r' ∈ pre, st.borrows.filter (fun b => b.rate > r' / 365 / 100) = []) →
      st.borrows.filter (fun b => b.rate > r / 365 / 100) ≠ [] →
      minBS ≤ sumAmounts (st.borrows.filter (fun b => b.rate > r / 365 / 100)) -
        st.pendingReturn →
      (onTimerSelect minBS (pre ++ r :: post) st).2 =
        [Command.borrow
          (sumAmounts (st.borrows.filter (fun b => b.rate > r / 365 / 100)) -
            st.pendingReturn)
          (r / 365 / 100)]) := by
  constructor
  · intro minBS rates st
    unfold onTimerCmds
    rw [countBorrows_append]
    have hcancel : countBorrows (cancelAllOrdersCmds st) = 0 := by
      unfold cancelAllOrdersCmds
      split
      · rfl
      · rfl
    rw [hcancel]
    unfold onTimerSelect
    dsimp only
    split
    · simp [countBorrows]
    · simpa using countBorrows_timerLoop minBS rates _
  · intro minBS r pre post st hmin hpre hne hge
    unfold onTimerSelect
    dsimp only
    split
    · rename_i hemp
      have : st.borrows = [] := hemp
      rw [this, List.filter_nil] at hne
      exact absurd rfl hne
    · exact timerLoop_first minBS pre r post _ hmin hpre hne hge

/-- Witness for C5: the three example borrows against the ladder
`[400000, 36500]` trigger one borrow of 800 at daily rate 1. -/
theorem claim5_witness :
    (onTimerSelect 150 ([400000] ++ 36500 :: []) exTState).2 =
      [Command.borrow
        (sumAmounts (exTState.borrows.filter (fun b => b.rate > 36500 / 365 / 100)) -
          exTState.pendingReturn)
        (36500 / 365 / 100)] :=
  claim5_single_tier_per_tick.2 150 36500 [400000] [] exTState (by norm_num)
    (by intro r' hr'
        simp only [List.mem_singleton] at hr'
        subst hr'
        norm_num [exTState, exReplace])
    (by norm_num [exTState, exReplace]; try simp)
    (by norm_num [exTState, exReplace, sumAmounts])

theorem freshNet_sortBorrows (u : Usage) (l : List Borrow) :
    freshNet u (sortBorrows l) = freshNet u l := by
  unfold freshNet
  exact sumAmounts_perm ((List.perm_insertionSort borrowWorse l).filter _)

theorem freshNet_append (u : Usage) (l₁ l₂ : List Borrow) :
    freshNet u (l₁ ++ l₂) = freshNet u l₁ + freshNet u l₂ := by
  unfold freshNet
  rw [List.filter_append, sumAmounts_append]

theorem freshNet_singleton (u : Usage) (b : Borrow) :
    freshNet u [b] = if b.usage = u then b.amount else 0 := by
  unfold freshNet
  by_cases hb : b.usage = u
  · simp [hb, List.filter_cons, sumAmounts_cons, sumAmounts_nil]
  · simp [hb, List.filter_cons, sumAmounts_nil]

theorem freshNet_id_partition (u : Usage) (i : Nat) (l : List Borrow) :
    freshNet u l = freshNet u (l.filter (fun x => x.id = i)) +
      freshNet u (l.filter (fun x => x.id ≠ i)) := by
  unfold freshNet
  induction l with
  | nil => simp [sumAmounts_nil]
  | cons a t ih =>
      by_cases hi : a.id = i <;> by_cases hu : a.usage = u <;>
        simp [List.filter_cons, hi, hu, sumAmounts_cons, ih] <;> ring

theorem consistent_step (st : BorrowStore) (e : BorrowEvent)
    (hc : consistentStore st) (he : freshEvent st e) :
    consistentStore (applyBorrowEvent st e) := by
  obtain ⟨h1, h2⟩ := hc
  cases e with
  | update b =>
      have hfil : st.borrows.filter (fun x => x.id ≠ b.id) = st.borrows := by
        rw [List.filter_eq_self]
        intro x hx
        exact decide_eq_true (he x hx)
      unfold applyBorrowEvent onUpdateBorrow consistentStore
      simp only
      rw [freshNet_sortBorrows, freshNet_sortBorrows, hfil, freshNet_append,
        freshNet_append, freshNet_singleton, freshNet_singleton]
      constructor
      · by_cases hu : b.usage = .inUse
        · simp [hu, h1]
        · simp [hu, h1]
      · by_cases hu : b.usage = .inUse
        · have : b.usage ≠ Usage.unused := by
            rw [hu]
            intro hcontra
            cases hcontra
          simp [hu, this, h2]
        · have hun : b.usage = Usage.unused := by
            cases hb : b.usage
            · exact absurd hb hu
            · rfl
          simp [hu, hun, h2]
  | cancel b =>
      have hfil : st.borrows.filter (fun x => x.id = b.id) = [b] := he
      unfold applyBorrowEvent onCancelBorrow consistentStore
      simp only
      have hsplit1 := freshNet_id_partition .inUse b.id st.borrows
      have hsplit2 := freshNet_id_partition .unused b.id st.borrows
      rw [hfil, freshNet_singleton] at hsplit1 hsplit2
      constructor
      · by_cases hu : b.usage = .inUse
        · simp only [hu, if_true]
          simp only [hu, if_true] at hsplit1
          rw [h1]
          linarith
        · simp only [hu, if_false]
          simp only [hu, if_false] at hsplit1
          rw [h1]
          linarith
      · by_cases hu : b.usage = .inUse
        · have hnu : b.usage ≠ Usage.unused := by
            rw [hu]
            intro hcontra
            cases hcontra
          simp only [hu, if_true]
          simp only [hnu, if_false] at hsplit2
          rw [h2]
          linarith
        · have hun : b.usage = Usage.unused := by
            cases hb : b.usage
            · exact absurd hb hu
            · rfl
          simp only [hu, if_false]
          simp only [hun, if_true] at hsplit2
          rw [h2]
          linarith

/-- Counterexample to claim C1 as stated: replaying an upsert for an id
already in the store double-counts its amount in `netUsing`, so the running
totals stop matching a fresh recomputation. -/
theorem claim1_counterexample :
    ¬ consistentStore (applyBorrowEvents dupEvents) := by
  intro h
  obtain ⟨h1, _⟩ := h
  revert h1
  norm_num [applyBorrowEvents, dupEvents, applyBorrowEvent, onUpdateBorrow,
    initBorrowStore, sortBorrows, freshNet, sumAmounts, exBorrow]

/-- Claim C1 (amended): for event sequences in which every upsert carries an
id not currently in the store and every cancel's payload matches the single
stored entry with its id, the incrementally maintained `netUsing` and
`netUnused` equal the sums of amounts of currently-active borrows grouped by
usage type, recomputed fresh from the collection. -/
theorem claim1_net_totals_amended (evs : List BorrowEvent)
    (h : okSeq initBorrowStore evs) :
    consistentStore (applyBorrowEvents evs) := by
  suffices hstep : ∀ (evs : List BorrowEvent) (st : BorrowStore), consistentStore st →
      okSeq st evs → consistentStore (evs.foldl applyBorrowEvent st) from
    hstep evs initBorrowStore ⟨rfl, rfl⟩ h
  intro evs
  induction evs with
  | nil => intro st hc _; exact hc
  | cons e rest ih =>
      intro st hc hok
      rw [List.foldl_cons]
      exact ih _ (consistent_step st e hc hok.1) hok.2

/-- Witness for the amended C1 on a concrete admissible sequence: two fresh
upserts followed by a faithful cancel. -/
theorem claim1_witness :
    okSeq initBorrowStore okEvents ∧ consistentStore (applyBorrowEvents okEvents) := by
  have hok : okSeq initBorrowStore okEvents := by
    norm_num [okSeq, freshEvent, applyBorrowEvent, onUpdateBorrow, initBorrowStore,
      sortBorrows, borrowWorse, exBorrow, exBorrow2, okEvents]
  exact ⟨hok, claim1_net_totals_amended okEvents hok⟩

theorem comboLoop_nil (t tol : ℚ) (possible : List Borrow) (st : ComboState) :
    comboLoop t tol [] possible st = (none, st) := by
  rw [comboLoop]

theorem comboLoop_cons (t tol : ℚ) (x : Borrow) (rest possible : List Borrow) (st : ComboState) :
    comboLoop t tol (x :: rest) possible st =
      (if (comboAccept t (possible ++ [x]) (findBestCombo t tol rest (possible ++ [x]) st).2
            (findBestCombo t tol rest (possible ++ [x]) st).1).smallestDiff < tol then
        (none, comboAccept t (possible ++ [x]) (findBestCombo t tol rest (possible ++ [x]) st).2
          (findBestCombo t tol rest (possible ++ [x]) st).1)
      else
        comboLoop t tol rest possible
          (comboAccept t (possible ++ [x]) (findBestCombo t tol rest (possible ++ [x]) st).2
            (findBestCombo t tol rest (possible ++ [x]) st).1)) := by
  rw [comboLoop]

theorem findBestCombo_ge {t tol : ℚ} {items possible : List Borrow} {st : ComboState}
    (h : sumAmounts possible ≥ t) :
    findBestCombo t tol items possible st = (some (sumAmounts possible), st) := by
  rw [findBestCombo]
  simp [h]

theorem findBestCombo_lt {t tol : ℚ} {items possible : List Borrow} {st : ComboState}
    (h : ¬ sumAmounts possible ≥ t) :
    findBestCombo t tol items possible st = comboLoop t tol items possible st := by
  rw [findBestCombo]
  simp [h]

theorem comboLoop_fst (t tol : ℚ) :
    ∀ (items possible : List Borrow) (st : ComboState),
      (comboLoop t tol items possible st).1 = none := by
  intro items
  induction items with
  | nil => intro possible st; rw [comboLoop_nil]
  | cons x rest ih =>
      intro possible st
      rw [comboLoop_cons]
      split
      · rfl
      · exact ih _ _

theorem comboAccept_le (t : ℚ) (next : List Borrow) (st1 : ComboState) (r : Option ℚ) :
    (comboAccept t next st1 r).smallestDiff ≤ st1.smallestDiff := by
  cases r with
  | none => exact le_refl _
  | some result =>
      simp only [comboAccept]
      split
      · exact le_refl _
      · split
        · rename_i h0 hlt
          exact le_of_lt hlt
        · exact le_refl _

theorem comboAccept_le_diff {t : ℚ} {next : List Borrow} {st1 : ComboState} {r : ℚ}
    (ht : 0 < t) (hr : t ≤ r) :
    (comboAccept t next st1 (some r)).smallestDiff ≤ r - t := by
  have hr0 : ¬ r = 0 := by
    intro h
    rw [h] at hr
    linarith
  simp only [comboAccept]
  rw [if_neg hr0]
  split
  · exact le_refl _
  · rename_i hnlt
    exact not_lt.mp hnlt

theorem comboLoop_mono (t tol : ℚ) :
    ∀ (items possible : List Borrow) (st : ComboState),
      (comboLoop t tol items possible st).2.smallestDiff ≤ st.smallestDiff := by
  intro items
  induction items with
  | nil => intro possible st; rw [comboLoop_nil]
  | cons x rest ih =>
      intro possible st
      rw [comboLoop_cons]
      by_cases hge : sumAmounts (possible ++ [x]) ≥ t
      · rw [findBestCombo_ge hge]
        split
        · exact comboAccept_le t _ st _
        · exact le_trans (ih _ _) (comboAccept_le t _ st _)
      · rw [findBestCombo_lt hge, comboLoop_fst]
        simp only [comboAccept]
        split
        · exact ih _ _
        · exact le_trans (ih _ _) (ih _ _)

theorem comboAccept_inv {t : ℚ} {next : List Borrow} {st1 : ComboState}
    (hge : t ≤ sumAmounts next) (h1 : t ≤ sumAmounts st1.toReturn)
    (h2 : sumAmounts st1.toReturn - t ≤ st1.smallestDiff) :
    t ≤ sumAmounts (comboAccept t next st1 (some (sumAmounts next))).toReturn ∧
      sumAmounts (comboAccept t next st1 (some (sumAmounts next))).toReturn - t ≤
        (comboAccept t next st1 (some (sumAmounts next))).smallestDiff := by
  simp only [comboAccept]
  split
  · exact ⟨h1, h2⟩
  · split
    · exact ⟨hge, le_refl _⟩
    · exact ⟨h1, h2⟩

theorem comboLoop_inv (t tol : ℚ) :
    ∀ (items possible : List Borrow) (st : ComboState),
      t ≤ sumAmounts st.toReturn → sumAmounts st.toReturn - t ≤ st.smallestDiff →
      t ≤ sumAmounts (comboLoop t tol items possible st).2.toReturn ∧
        sumAmounts (comboLoop t tol items possible st).2.toReturn - t ≤
          (comboLoop t tol items possible st).2.smallestDiff := by
  intro items
  induction items with
  | nil =>
      intro possible st h1 h2
      rw [comboLoop_nil]
      exact ⟨h1, h2⟩
  | cons x rest ih =>
      intro possible st h1 h2
      rw [comboLoop_cons]
      by_cases hge : sumAmounts (possible ++ [x]) ≥ t
      · rw [findBestCombo_ge hge]
        have hacc := comboAccept_inv hge h1 h2
        split
        · exact hacc
        · exact ih _ _ hacc.1 hacc.2
      · rw [findBestCombo_lt hge, comboLoop_fst]
        simp only [comboAccept]
        have hmid := ih (possible ++ [x]) st h1 h2
        split
        · exact hmid
        · exact ih possible _ hmid.1 hmid.2

theorem comboLoop_min (t tol : ℚ) :
    ∀ (items possible : List Borrow) (st : ComboState),
      0 < t → (∀ b ∈ items, 0 ≤ b.amount) → sumAmounts possible < t →
      ∀ s : List Borrow, s.Sublist items → t ≤ sumAmounts (possible ++ s) →
      (comboLoop t tol items possible st).2.smallestDiff < tol ∨
        (comboLoop t tol items possible st).2.smallestDiff ≤
          sumAmounts (possible ++ s) - t := by
  intro items
  induction items with
  | nil =>
      intro possible st ht _ hplt s hs hsum
      have hnil : s = [] := List.sublist_nil.mp hs
      subst hnil
      rw [List.append_nil] at hsum
      linarith
  | cons x rest ih =>
      intro possible st ht hnn hplt s hs hsum
      have hnnrest : ∀ b ∈ rest, 0 ≤ b.amount := fun b hb => hnn b (List.mem_cons_of_mem x hb)
      rw [comboLoop_cons]
      rcases List.sublist_cons_iff.mp hs with hs' | ⟨s₂, rfl, hs'⟩
      ·
          by_cases hge : sumAmounts (possible ++ [x]) ≥ t
          · rw [findBestCombo_ge hge]
            split
            · rename_i hstop
              exact Or.inl hstop
            · exact ih possible _ ht hnnrest hplt s hs' hsum
          · rw [findBestCombo_lt hge, comboLoop_fst]
            simp only [comboAccept]
            split
            · rename_i hstop
              exact Or.inl hstop
            · exact ih possible _ ht hnnrest hplt s hs' hsum
      ·
          have hs2sum : 0 ≤ sumAmounts s₂ :=
            sumAmounts_nonneg (fun b hb => hnnrest b (hs'.subset hb))
          have happ : sumAmounts (possible ++ x :: s₂) =
              sumAmounts (possible ++ [x]) + sumAmounts s₂ := by
            rw [sumAmounts_append, sumAmounts_append, sumAmounts_cons, sumAmounts_cons,
              sumAmounts_nil]
            ring
          by_cases hge : sumAmounts (possible ++ [x]) ≥ t
          · rw [findBestCombo_ge hge]
            have hacc := @comboAccept_le_diff t (possible ++ [x]) st
              (sumAmounts (possible ++ [x])) ht hge
            split
            · rename_i hstop
              exact Or.inl hstop
            · right
              calc (comboLoop t tol rest possible _).2.smallestDiff
                  ≤ _ := comboLoop_mono t tol rest possible _
                _ ≤ sumAmounts (possible ++ [x]) - t := hacc
                _ ≤ sumAmounts (possible ++ x :: s₂) - t := by
                    rw [happ]; linarith
          · rw [findBestCombo_lt hge, comboLoop_fst]
            simp only [comboAccept]
            have hmid := ih (possible ++ [x]) st ht hnnrest (not_le.mp hge) s₂ hs' (by
              have hap2 : (possible ++ [x]) ++ s₂ = possible ++ x :: s₂ := by simp
              rw [hap2]
              exact hsum)
            have hap2 : (possible ++ [x]) ++ s₂ = possible ++ x :: s₂ := by simp
            rw [hap2] at hmid
            split
            · rename_i hstop
              exact Or.inl hstop
            · rename_i hstop
              cases hmid with
              | inl hlt => exact absurd hlt hstop
              | inr hle2 =>
                  right
                  exact le_trans (comboLoop_mono t tol rest possible _) hle2

theorem borrowsToReturn_eq (p : Pending) (toReplace : List Borrow)
    (hc : ¬ p.filledCount = 0) (hlen : ¬ toReplace.length = 1) :
    borrowsToReturn (some p) toReplace =
      (findBestCombo p.filledAmount (sumAmounts toReplace / 1000000) toReplace []
        ⟨sumAmounts toReplace, toReplace⟩).2.toReturn := by
  unfold borrowsToReturn
  dsimp only
  rw [if_neg hc, if_neg hlen]
  rfl

/-- Claim C4: when no fill occurred, `borrowsToReturn` returns nothing; when
a fill occurred, the chosen return set always covers the filled amount (never
less) and its overshoot is minimal among all sub-multisets of `toReplace`
covering the filled amount, up to the early-exit tolerance of one millionth
of the total. -/
theorem claim4_return_combination :
    (∀ (p : Pending) (toReplace : List Borrow), p.filledCount = 0 →
      borrowsToReturn (some p) toReplace = []) ∧
    (∀ (p : Pending) (toReplace : List Borrow),
      toReplace ≠ [] → (∀ b ∈ toReplace, 0 ≤ b.amount) →
      0 < p.filledCount → 0 < p.filledAmount →
      p.filledAmount ≤ sumAmounts toReplace →
      p.filledAmount ≤ sumAmounts (borrowsToReturn (some p) toReplace) ∧
      (∀ s : List Borrow, s.Sublist toReplace → p.filledAmount ≤ sumAmounts s →
        sumAmounts (borrowsToReturn (some p) toReplace) - p.filledAmount ≤
          (sumAmounts s - p.filledAmount) + sumAmounts toReplace / 1000000)) := by
  constructor
  · intro p toReplace h
    unfold borrowsToReturn
    dsimp only
    rw [if_pos h]
  · intro p toReplace hne hnn hfc hfa hle
    have htotpos : 0 < sumAmounts toReplace := lt_of_lt_of_le hfa hle
    have htol : 0 ≤ sumAmounts toReplace / 1000000 := by positivity
    by_cases hlen : toReplace.length = 1
    · have hbr : borrowsToReturn (some p) toReplace = toReplace := by
        unfold borrowsToReturn
        dsimp only
        rw [if_neg (by omega : ¬ p.filledCount = 0), if_pos hlen]
      rw [hbr]
      refine ⟨hle, ?_⟩
      intro s hs hssum
      obtain ⟨b, hb⟩ : ∃ b, toReplace = [b] := by
        cases toReplace with
        | nil => simp at hlen
        | cons b tl =>
            cases tl with
            | nil => exact ⟨b, rfl⟩
            | cons c tl2 => simp at hlen
      subst hb
      rcases List.sublist_cons_iff.mp hs with hs' | ⟨s₂, rfl, hs'⟩
      · have : s = [] := List.sublist_nil.mp hs'
        subst this
        rw [sumAmounts_nil] at hssum
        linarith
      · have : s₂ = [] := List.sublist_nil.mp hs'
        subst this
        linarith
    · rw [borrowsToReturn_eq p toReplace (by omega) hlen]
      have h0 : ¬ sumAmounts ([] : List Borrow) ≥ p.filledAmount := by
        rw [sumAmounts_nil]
        linarith
      rw [findBestCombo_lt h0]
      have hinv := comboLoop_inv p.filledAmount (sumAmounts toReplace / 1000000)
        toReplace [] ⟨sumAmounts toReplace, toReplace⟩ hle (by
          show sumAmounts toReplace - p.filledAmount ≤ sumAmounts toReplace
          linarith)
      refine ⟨hinv.1, ?_⟩
      intro s hs hssum
      have hmin := comboLoop_min p.filledAmount (sumAmounts toReplace / 1000000)
        toReplace [] ⟨sumAmounts toReplace, toReplace⟩ hfa hnn
        (by rw [sumAmounts_nil]; exact hfa) s hs
        (by rw [List.nil_append]; exact hssum)
      rw [List.nil_append] at hmin
      rcases hmin with hlt | hle2
      · have h2 := hinv.2
        have h1 : 0 ≤ sumAmounts s - p.filledAmount := by linarith
        linarith
      · have h2 := hinv.2
        linarith

/-- Witness for C4: the three example borrows with 400 filled give a return
set covering 400 whose overshoot is within tolerance of the best single-item
cover. -/
theorem claim4_witness :
    exPending.filledAmount ≤ sumAmounts (borrowsToReturn (some exPending) exReplace) ∧
    sumAmounts (borrowsToReturn (some exPending) exReplace) - exPending.filledAmount ≤
      (sumAmounts [(⟨1, .inUse, 3, 3, 2, 500⟩ : Borrow)] - exPending.filledAmount) +
        sumAmounts exReplace / 1000000 := by
  have h := claim4_return_combination.2 exPending exReplace (by simp [exReplace])
    (by norm_num [exReplace]) (by norm_num [exPending]) (by norm_num [exPending])
    (by norm_num [exPending, exReplace, sumAmounts])
  refine ⟨h.1, h.2 [(⟨1, .inUse, 3, 3, 2, 500⟩ : Borrow)] ?_ ?_⟩
  · show [(⟨1, .inUse, 3, 3, 2, 500⟩ : Borrow)].Sublist exReplace
    exact List.Sublist.cons₂ _ (List.nil_sublist _)
  · norm_num [exPending, sumAmounts]

/-- Claim C8: with the dry-run flag set, each mutating gateway command
(`borrowFunds`, `borrowReturn`, `cancelOffers`) sends no socket message and
makes no REST call, yet still produces a log line. -/
theorem claim8_dry_run_no_mutation :
    ∀ (amount rate : ℚ) (ids cancelIds : List Nat),
      ((psBorrowFunds true amount rate).msgs = [] ∧
        (psBorrowFunds true amount rate).calls = [] ∧
        (psBorrowFunds true amount rate).logs ≠ []) ∧
      ((psBorrowReturn true ids).msgs = [] ∧
        (psBorrowReturn true ids).calls = [] ∧
        (psBorrowReturn true ids).logs ≠ []) ∧
      ((psCancelOffers true cancelIds).msgs = [] ∧
        (psCancelOffers true cancelIds).calls = [] ∧
        (psCancelOffers true cancelIds).logs ≠ []) := by
  intro amount rate ids cancelIds
  refine ⟨⟨rfl, rfl, ?_⟩, ⟨rfl, rfl, ?_⟩, ⟨rfl, rfl, ?_⟩⟩ <;> simp [psBorrowFunds,
    psBorrowReturn, psCancelOffers]

end AutoFund
